import Mathlib

/-!
Verification of the binary-module section editor
(`src/tools/strip_target_features.py`): a tool that walks the section
table of a WASM module, removes custom sections named `target_features`,
and re-emits the remaining bytes verbatim.

The embedding works on `List Nat` as the byte buffer.  The Python loop
walks the buffer with an absolute cursor `pos`; every read it performs is
at `pos` or later, so the loop is embedded as a recursion over the
remaining suffix `data.drop pos`.  Python exceptions (the magic-number
`assert` and `IndexError` from reading past the end of the buffer) are
modelled by `Except StripError`; an `Except.error` result corresponds to
the process aborting before the output file is written, so `error`
results mean "no output file is produced".  The number of removed
sections (the per-occurrence "Stripped" diagnostic / the `stripped`
flag, `stripped = (count > 0)`) is returned as the second component.
-/

/-- Errors of the pass: `notWasm` models the failed magic `assert`,
`outOfBounds` models an `IndexError` raised by `data[i]` inside
`read_leb128` when a read runs past the end of the buffer.  Either way
the Python process dies before `open(argv[2], "wb")` runs, so no output
file is written. -/
inductive StripError where
  | notWasm : StripError
  | outOfBounds : StripError
deriving DecidableEq

/-- The 4-byte magic constant `b"\x00asm"`. -/
def wasmMagic : List Nat := [0x00, 0x61, 0x73, 0x6D]

/-- The bytes (equivalently, the ASCII code points) of the hardcoded
section name `"target_features"`. -/
def target_features : List Nat :=
  [0x74, 0x61, 0x72, 0x67, 0x65, 0x74, 0x5F,
   0x66, 0x65, 0x61, 0x74, 0x75, 0x72, 0x65, 0x73]

/-- Core of `read_leb128`, recursing over the suffix of the buffer that
starts at the current index `i` (the Python loop reads `data[i]` and
increments `i`).  `shift` and `result` are the loop accumulators.
Returns `(result, i - offset)` on the first byte with the high bit
clear; `none` models the `IndexError` when `i` runs off the buffer. -/
def lebCore : List Nat → Nat → Nat → Option (Nat × Nat)
  | [], _, _ => none
  | b :: rest, shift, result =>
    let result' := result ||| ((b &&& 0x7F) <<< shift)
    if b &&& 0x80 = 0 then
      some (result', 1)
    else
      match lebCore rest (shift + 7) result' with
      | none => none
      | some (v, c) => some (v, c + 1)

/-- `read_leb128(data, offset)`: decode an unsigned LEB128 varint
starting at `offset`, returning `(value, bytes_consumed)`. -/
def read_leb128 (data : List Nat) (offset : Nat) : Option (Nat × Nat) :=
  lebCore (data.drop offset) 0 0

/-- One step of CPython's UTF-8 decoder with `errors="replace"`, applied
to the first byte `b` with the following bytes `rest`.  Returns the
produced code point and how many bytes of `rest` are consumed in
addition to `b`.  Invalid input produces U+FFFD for the maximal subpart
of an ill-formed sequence, as CPython does. -/
def utf8Step (b : Nat) (rest : List Nat) : Nat × Nat :=
  if b < 0x80 then
    (b, 0)
  else if 0xC2 ≤ b ∧ b ≤ 0xDF then
    match rest with
    | b2 :: _ =>
      if 0x80 ≤ b2 ∧ b2 ≤ 0xBF then
        ((b - 0xC0) * 0x40 + (b2 - 0x80), 1)
      else (0xFFFD, 0)
    | [] => (0xFFFD, 0)
  else if 0xE0 ≤ b ∧ b ≤ 0xEF then
    match rest with
    | b2 :: rest2 =>
      if (b = 0xE0 ∧ 0xA0 ≤ b2 ∧ b2 ≤ 0xBF) ∨
         (b = 0xED ∧ 0x80 ≤ b2 ∧ b2 ≤ 0x9F) ∨
         (b ≠ 0xE0 ∧ b ≠ 0xED ∧ 0x80 ≤ b2 ∧ b2 ≤ 0xBF) then
        match rest2 with
        | b3 :: _ =>
          if 0x80 ≤ b3 ∧ b3 ≤ 0xBF then
            ((b - 0xE0) * 0x1000 + (b2 - 0x80) * 0x40 + (b3 - 0x80), 2)
          else (0xFFFD, 1)
        | [] => (0xFFFD, 1)
      else (0xFFFD, 0)
    | [] => (0xFFFD, 0)
  else if 0xF0 ≤ b ∧ b ≤ 0xF4 then
    match rest with
    | b2 :: rest2 =>
      if (b = 0xF0 ∧ 0x90 ≤ b2 ∧ b2 ≤ 0xBF) ∨
         (b = 0xF4 ∧ 0x80 ≤ b2 ∧ b2 ≤ 0x8F) ∨
         (b ≠ 0xF0 ∧ b ≠ 0xF4 ∧ 0x80 ≤ b2 ∧ b2 ≤ 0xBF) then
        match rest2 with
        | b3 :: rest3 =>
          if 0x80 ≤ b3 ∧ b3 ≤ 0xBF then
            match rest3 with
            | b4 :: _ =>
              if 0x80 ≤ b4 ∧ b4 ≤ 0xBF then
                ((b - 0xF0) * 0x40000 + (b2 - 0x80) * 0x1000 +
                   (b3 - 0x80) * 0x40 + (b4 - 0x80), 3)
              else (0xFFFD, 2)
            | [] => (0xFFFD, 2)
          else (0xFFFD, 1)
        | [] => (0xFFFD, 1)
      else (0xFFFD, 0)
    | [] => (0xFFFD, 0)
  else (0xFFFD, 0)

/-- Fuelled driver for the UTF-8 decoder (the fuel only serves to make
the recursion structural; `utf8DecodeReplace` instantiates it with the
length of the input, which is always sufficient since each step consumes
at least one byte). -/
def utf8Go : Nat → List Nat → List Nat
  | _, [] => []
  | 0, _ :: _ => []
  | fuel + 1, b :: rest =>
    (utf8Step b rest).1 :: utf8Go fuel (rest.drop (utf8Step b rest).2)

/-- `bytes.decode("utf-8", errors="replace")`, as a map from bytes to
the sequence of code points of the resulting string. -/
def utf8DecodeReplace (bs : List Nat) : List Nat :=
  utf8Go bs.length bs

/-- Validity of a byte sequence as UTF-8 text (RFC 3629, what a strict
decode accepts).  Used only to state claims about invalid names. -/
def utf8ValidB : List Nat → Bool
  | [] => true
  | b :: rest =>
    if b < 0x80 then utf8ValidB rest
    else if 0xC2 ≤ b ∧ b ≤ 0xDF then
      match rest with
      | b2 :: rest2 =>
        if 0x80 ≤ b2 ∧ b2 ≤ 0xBF then utf8ValidB rest2 else false
      | [] => false
    else if 0xE0 ≤ b ∧ b ≤ 0xEF then
      match rest with
      | b2 :: b3 :: rest3 =>
        if ((b = 0xE0 ∧ 0xA0 ≤ b2 ∧ b2 ≤ 0xBF) ∨
            (b = 0xED ∧ 0x80 ≤ b2 ∧ b2 ≤ 0x9F) ∨
            (b ≠ 0xE0 ∧ b ≠ 0xED ∧ 0x80 ≤ b2 ∧ b2 ≤ 0xBF)) ∧
           (0x80 ≤ b3 ∧ b3 ≤ 0xBF) then utf8ValidB rest3
        else false
      | _ => false
    else if 0xF0 ≤ b ∧ b ≤ 0xF4 then
      match rest with
      | b2 :: b3 :: b4 :: rest4 =>
        if ((b = 0xF0 ∧ 0x90 ≤ b2 ∧ b2 ≤ 0xBF) ∨
            (b = 0xF4 ∧ 0x80 ≤ b2 ∧ b2 ≤ 0x8F) ∨
            (b ≠ 0xF0 ∧ b ≠ 0xF4 ∧ 0x80 ≤ b2 ∧ b2 ≤ 0xBF)) ∧
           (0x80 ≤ b3 ∧ b3 ≤ 0xBF) ∧ (0x80 ≤ b4 ∧ b4 ≤ 0xBF) then
          utf8ValidB rest4
        else false
      | _ => false
    else false

/-- Fuelled driver for the main `while pos < len(data)` loop of `main`,
recursing over the suffix `data.drop pos`.  Per iteration (suffix
`id :: after`, so `pos < len(data)` and `section_id = data[pos]`):
`section_size, leb_len = read_leb128(data, pos + 1)`,
`section_end - pos = 1 + leb_len + section_size`; for a custom section
(`id = 0`) the name length is decoded at the start of the payload, the
name bytes are sliced (Python slices clamp at the end of the buffer) and
UTF-8-decoded with replacement; a section whose decoded name equals
`target_features` is skipped (its span is not copied; the removal count
is incremented, mirroring the `stripped` flag and the per-occurrence
diagnostic), every other section's span `data[pos : section_end]` is
copied verbatim.  `none`-results of `read_leb128` (Python `IndexError`,
killing the process) are propagated as `.error .outOfBounds`.  The fuel
only makes the recursion structural; it is instantiated with the length
of the suffix, which is always sufficient because every iteration drops
at least two bytes. -/
def stripGo : Nat → List Nat → Except StripError (List Nat × Nat)
  | _, [] => .ok ([], 0)
  | 0, _ :: _ => .error .outOfBounds
  | fuel + 1, id :: after =>
    match read_leb128 (id :: after) 1 with
    | none => .error .outOfBounds
    | some (size, l) =>
      if id = 0 then
        match read_leb128 (id :: after) (1 + l) with
        | none => .error .outOfBounds
        | some (nlen, nl) =>
          if utf8DecodeReplace (((id :: after).drop (1 + l + nl)).take nlen)
              = target_features then
            Except.map (fun p => (p.1, p.2 + 1))
              (stripGo fuel ((id :: after).drop (1 + l + size)))
          else
            Except.map (fun p => ((id :: after).take (1 + l + size) ++ p.1, p.2))
              (stripGo fuel ((id :: after).drop (1 + l + size)))
      else
        Except.map (fun p => ((id :: after).take (1 + l + size) ++ p.1, p.2))
          (stripGo fuel ((id :: after).drop (1 + l + size)))

/-- The main loop of `main`, applied to the suffix of the buffer that
starts at the current cursor.  Returns the bytes emitted after the
header together with the number of stripped sections. -/
def stripLoop (s : List Nat) : Except StripError (List Nat × Nat) :=
  stripGo s.length s

/-- The whole pass of `main`, minus file I/O: check the magic
(`assert data[:4] == b"\x00asm"`), seed the output with `data[:8]`, run
the loop from `pos = 8`.  `.ok (out, c)` means the output file is
written with bytes `out` and `c` sections were stripped (`c = 0`
corresponds to `stripped == False`, the warning path, still a successful
exit); `.error e` means the process died and no output file exists. -/
def strip (data : List Nat) : Except StripError (List Nat × Nat) :=
  if data.take 4 = wasmMagic then
    Except.map (fun p => (data.take 8 ++ p.1, p.2)) (stripLoop (data.drop 8))
  else
    .error .notWasm

/-- Concatenation of the byte spans of a list of framed sections
(each paired with its "matches the target name" flag). -/
def sectionsBytes : List (List Nat × Bool) → List Nat
  | [] => []
  | p :: rest => p.1 ++ sectionsBytes rest

/-- Fuelled driver for the Section Framer.  Modelled from the spec:
walk the buffer from the cursor; read the id byte and the size varint;
fail (`TruncatedModule`) when the declared payload end exceeds the
buffer; for a custom section decode the name-length varint at the start
of the payload (failure of a varint to terminate inside the buffer is
`MalformedEncoding`, fatal) and slice the name immediately after (the
slice clamps at the buffer end; per the spec the name is *not* clamped
to the section's own payload); record whether the decoded name equals
`target_features`; emit the section's span and continue at the payload
end; finish exactly at the end of the buffer.  The fuel only makes the
recursion structural. -/
def frameGo : Nat → List Nat → Option (List (List Nat × Bool))
  | _, [] => some []
  | 0, _ :: _ => none
  | fuel + 1, id :: after =>
    match read_leb128 (id :: after) 1 with
    | none => none
    | some (size, l) =>
      if 1 + l + size ≤ (id :: after).length then
        if id = 0 then
          match read_leb128 (id :: after) (1 + l) with
          | none => none
          | some (nlen, nl) =>
            Option.map
              (fun secs =>
                ((id :: after).take (1 + l + size),
                  decide (utf8DecodeReplace
                    (((id :: after).drop (1 + l + nl)).take nlen)
                    = target_features)) :: secs)
              (frameGo fuel ((id :: after).drop (1 + l + size)))
        else
          Option.map
            (fun secs => ((id :: after).take (1 + l + size), false) :: secs)
            (frameGo fuel ((id :: after).drop (1 + l + size)))
      else none

/-- The Section Framer of the spec (section 4.2), applied to the part of
the module after the 8-byte header: yields the list of section spans in
order, each with the flag "is a custom section whose decoded name equals
the target name".  `frameSecs s = some secs` is the well-formedness of
the section table: every size varint and every custom section's
name-length varint terminates inside the buffer, and every declared span
lies inside the buffer. -/
def frameSecs (s : List Nat) : Option (List (List Nat × Bool)) :=
  frameGo s.length s

/-- A byte chunk that is a single self-contained well-formed section
carrying match-flag `m`: the size varint declares exactly the rest of
the chunk as payload and, for a custom section, the whole name field
(length varint and name bytes) lies inside the chunk itself, so that
parsing the chunk does not depend on any byte outside it. -/
def IsSectionChunkB : List Nat → Bool → Bool
  | [], _ => false
  | id :: after, m =>
    match read_leb128 (id :: after) 1 with
    | none => false
    | some (size, l) =>
      decide ((id :: after).length = 1 + l + size) &&
      (if id = 0 then
        match read_leb128 (id :: after) (1 + l) with
        | none => false
        | some (nlen, nl) =>
          decide (1 + l + nl + nlen ≤ (id :: after).length) &&
          (m == decide (utf8DecodeReplace
            (((id :: after).drop (1 + l + nl)).take nlen) = target_features))
      else m == false)

/-- Little-endian base-128 value of a byte list, as the spec words it:
each byte contributes its low 7 bits, OR-ed in shifted left by 7 per
byte index. -/
def leb128SpecValue : List Nat → Nat
  | [] => 0
  | b :: bs => (b &&& 0x7F) ||| (leb128SpecValue bs <<< 7)

/-! ### Basic facts about the varint decoder -/

theorem lebCore_consumed_pos (s : List Nat) (shift acc v c : Nat)
    (h : lebCore s shift acc = some (v, c)) : 1 ≤ c := by
  match s with
  | [] => simp [lebCore] at h
  | b :: rest =>
    simp only [lebCore] at h
    split at h
    · simp only [Option.some.injEq, Prod.mk.injEq] at h
      omega
    · split at h
      · exact absurd h (by simp)
      · simp only [Option.some.injEq, Prod.mk.injEq] at h
        omega

theorem lebCore_none_of_all_cont (s : List Nat) (shift acc : Nat)
    (hall : ∀ b ∈ s, b &&& 0x80 ≠ 0) : lebCore s shift acc = none := by
  induction s generalizing shift acc with
  | nil => rfl
  | cons b rest ih =>
    simp only [lebCore]
    rw [if_neg (hall b (List.mem_cons_self b rest))]
    rw [ih (shift + 7) _ (fun x hx => hall x (List.mem_cons_of_mem b hx))]

theorem lebCore_append (u v : List Nat) (shift acc : Nat) (r : Nat × Nat)
    (h : lebCore u shift acc = some r) : lebCore (u ++ v) shift acc = some r := by
  induction u generalizing shift acc r with
  | nil => simp [lebCore] at h
  | cons b rest ih =>
    simp only [lebCore] at h ⊢
    by_cases hb : b &&& 0x80 = 0
    · rw [if_pos hb] at h ⊢
      exact h
    · rw [if_neg hb] at h ⊢
      cases hrec : lebCore rest (shift + 7) (acc ||| ((b &&& 0x7F) <<< shift)) with
      | none => rw [hrec] at h; exact absurd h (by simp)
      | some q =>
        rw [hrec] at h
        simp only [List.append_eq]
        rw [ih _ _ _ hrec]
        exact h

theorem lebCore_some_ne_nil (s : List Nat) (shift acc : Nat) (r : Nat × Nat)
    (h : lebCore s shift acc = some r) : s ≠ [] := by
  intro hnil
  subst hnil
  simp [lebCore] at h

/-- Localization: a successful varint read inside `chunk` gives the same
result when `chunk` is followed by more bytes. -/
theorem read_leb128_append (chunk rest : List Nat) (k : Nat) (r : Nat × Nat)
    (h : read_leb128 chunk k = some r) : read_leb128 (chunk ++ rest) k = some r := by
  unfold read_leb128 at h ⊢
  have hk : k ≤ chunk.length := by
    by_contra hgt
    rw [List.drop_eq_nil_of_le (by omega)] at h
    simp [lebCore] at h
  rw [List.drop_append_of_le_length hk]
  exact lebCore_append _ rest _ _ _ h

/-- Distribution of shift over bitwise or. -/
theorem shiftLeft_or_distrib (a b n : Nat) :
    (a ||| b) <<< n = (a <<< n) ||| (b <<< n) := by
  apply Nat.eq_of_testBit_eq
  intro i
  simp [Nat.testBit_shiftLeft, Nat.testBit_or]
  by_cases h : n ≤ i <;> simp [h]

/-! ### Fuel monotonicity and unfolding equations -/

theorem utf8Go_fuel (f1 : Nat) : ∀ (f2 : Nat) (bs : List Nat),
    bs.length ≤ f1 → bs.length ≤ f2 → utf8Go f1 bs = utf8Go f2 bs := by
  induction f1 with
  | zero =>
    intro f2 bs h1 _
    match bs with
    | [] => cases f2 <;> rfl
    | b :: rest => simp at h1
  | succ g1 ih =>
    intro f2 bs h1 h2
    match bs with
    | [] => cases f2 <;> rfl
    | b :: rest =>
      match f2 with
      | 0 => simp at h2
      | g2 + 1 =>
        simp only [utf8Go]
        congr 1
        apply ih
        · have := List.length_drop (utf8Step b rest).2 rest
          simp at h1 ⊢
          omega
        · have := List.length_drop (utf8Step b rest).2 rest
          simp at h2 ⊢
          omega

theorem utf8DecodeReplace_cons (b : Nat) (rest : List Nat) :
    utf8DecodeReplace (b :: rest)
      = (utf8Step b rest).1 ::
          utf8DecodeReplace (rest.drop (utf8Step b rest).2) := by
  show utf8Go (rest.length + 1) (b :: rest) = _
  simp only [utf8Go]
  congr 1
  apply utf8Go_fuel
  · simp
  · rfl

theorem stripGo_fuel (f1 : Nat) : ∀ (f2 : Nat) (s : List Nat),
    s.length ≤ f1 → s.length ≤ f2 → stripGo f1 s = stripGo f2 s := by
  induction f1 with
  | zero =>
    intro f2 s h1 _
    match s with
    | [] => cases f2 <;> rfl
    | b :: rest => simp at h1
  | succ g1 ih =>
    intro f2 s h1 h2
    match s with
    | [] => cases f2 <;> rfl
    | id :: after =>
      match f2 with
      | 0 => simp at h2
      | g2 + 1 =>
        simp only [List.length_cons] at h1 h2
        have hd : ∀ sz lb : Nat,
            ((id :: after).drop (1 + lb + sz)).length ≤ g1 ∧
            ((id :: after).drop (1 + lb + sz)).length ≤ g2 := by
          intro sz lb
          simp only [List.length_drop, List.length_cons]
          omega
        simp only [stripGo]
        split
        · rfl
        · rename_i size l _
          by_cases hid : id = 0
          · rw [if_pos hid, if_pos hid]
            split
            · rfl
            · rename_i nlen nl _
              split
              · rw [ih g2 _ (hd size l).1 (hd size l).2]
              · rw [ih g2 _ (hd size l).1 (hd size l).2]
          · rw [if_neg hid, if_neg hid]
            rw [ih g2 _ (hd size l).1 (hd size l).2]

theorem frameGo_fuel (f1 : Nat) : ∀ (f2 : Nat) (s : List Nat),
    s.length ≤ f1 → s.length ≤ f2 → frameGo f1 s = frameGo f2 s := by
  induction f1 with
  | zero =>
    intro f2 s h1 _
    match s with
    | [] => cases f2 <;> rfl
    | b :: rest => simp at h1
  | succ g1 ih =>
    intro f2 s h1 h2
    match s with
    | [] => cases f2 <;> rfl
    | id :: after =>
      match f2 with
      | 0 => simp at h2
      | g2 + 1 =>
        simp only [List.length_cons] at h1 h2
        have hd : ∀ sz lb : Nat,
            ((id :: after).drop (1 + lb + sz)).length ≤ g1 ∧
            ((id :: after).drop (1 + lb + sz)).length ≤ g2 := by
          intro sz lb
          simp only [List.length_drop, List.length_cons]
          omega
        simp only [frameGo]
        split
        · rfl
        · rename_i size l _
          split
          · by_cases hid : id = 0
            · rw [if_pos hid, if_pos hid]
              split
              · rfl
              · rw [ih g2 _ (hd size l).1 (hd size l).2]
            · rw [if_neg hid, if_neg hid]
              rw [ih g2 _ (hd size l).1 (hd size l).2]
          · rfl

theorem stripLoop_nil : stripLoop [] = .ok ([], 0) := rfl

theorem stripLoop_leb_none (id : Nat) (after : List Nat)
    (h : read_leb128 (id :: after) 1 = none) :
    stripLoop (id :: after) = .error .outOfBounds := by
  show stripGo (id :: after).length (id :: after) = _
  simp only [List.length_cons, stripGo, h]

theorem stripLoop_noncustom (id : Nat) (after : List Nat) (size l : Nat)
    (hid : ¬ id = 0) (h : read_leb128 (id :: after) 1 = some (size, l)) :
    stripLoop (id :: after)
      = Except.map (fun p => ((id :: after).take (1 + l + size) ++ p.1, p.2))
          (stripLoop ((id :: after).drop (1 + l + size))) := by
  show stripGo (id :: after).length (id :: after) = _
  simp only [List.length_cons, stripGo, h, if_neg hid]
  exact congrArg (Except.map _)
    (stripGo_fuel after.length ((id :: after).drop (1 + l + size)).length _
      (by simp only [List.length_drop, List.length_cons]; omega) le_rfl)

theorem stripLoop_custom_name_none (after : List Nat) (size l : Nat)
    (hleb : read_leb128 (0 :: after) 1 = some (size, l))
    (hname : read_leb128 (0 :: after) (1 + l) = none) :
    stripLoop (0 :: after) = .error .outOfBounds := by
  show stripGo (0 :: after).length (0 :: after) = _
  simp only [List.length_cons, stripGo, hleb, hname, eq_self_iff_true, if_true]

theorem stripLoop_custom (after : List Nat) (size l nlen nl : Nat)
    (hleb : read_leb128 (0 :: after) 1 = some (size, l))
    (hname : read_leb128 (0 :: after) (1 + l) = some (nlen, nl)) :
    stripLoop (0 :: after)
      = if utf8DecodeReplace (((0 :: after).drop (1 + l + nl)).take nlen)
            = target_features then
          Except.map (fun p => (p.1, p.2 + 1))
            (stripLoop ((0 :: after).drop (1 + l + size)))
        else
          Except.map (fun p => ((0 :: after).take (1 + l + size) ++ p.1, p.2))
            (stripLoop ((0 :: after).drop (1 + l + size))) := by
  show stripGo (0 :: after).length (0 :: after) = _
  simp only [List.length_cons, stripGo, hleb, hname, eq_self_iff_true, if_true]
  have hfuel := stripGo_fuel after.length
    ((0 :: after).drop (1 + l + size)).length ((0 :: after).drop (1 + l + size))
    (by simp only [List.length_drop, List.length_cons]; omega) le_rfl
  by_cases hc : utf8DecodeReplace (((0 :: after).drop (1 + l + nl)).take nlen)
      = target_features
  · rw [if_pos hc, if_pos hc]
    exact congrArg (Except.map _) hfuel
  · rw [if_neg hc, if_neg hc]
    exact congrArg (Except.map _) hfuel

theorem frameSecs_nil : frameSecs [] = some [] := rfl

theorem frameSecs_cons_ne_nil (id : Nat) (after : List Nat) (secs : List (List Nat × Bool))
    (h : frameSecs (id :: after) = some secs) : secs ≠ [] := by
  intro hnil
  subst hnil
  have h' : frameGo (id :: after).length (id :: after) = some [] := h
  simp only [List.length_cons, frameGo] at h'
  split at h'
  · simp at h'
  · split at h'
    · split at h'
      · split at h'
        · simp at h'
        · simp only [Option.map_eq_some'] at h'
          obtain ⟨_, _, hcons⟩ := h'
          simp at hcons
      · simp only [Option.map_eq_some'] at h'
        obtain ⟨_, _, hcons⟩ := h'
        simp at hcons
    · simp at h'

theorem frameSecs_leb_none (id : Nat) (after : List Nat)
    (h : read_leb128 (id :: after) 1 = none) :
    frameSecs (id :: after) = none := by
  show frameGo (id :: after).length (id :: after) = _
  simp only [List.length_cons, frameGo, h]

theorem frameSecs_overrun (id : Nat) (after : List Nat) (size l : Nat)
    (hleb : read_leb128 (id :: after) 1 = some (size, l))
    (hover : ¬ 1 + l + size ≤ (id :: after).length) :
    frameSecs (id :: after) = none := by
  show frameGo (id :: after).length (id :: after) = _
  simp only [List.length_cons, frameGo, hleb]
  rw [if_neg (by simpa using hover)]

theorem frameSecs_noncustom (id : Nat) (after : List Nat) (size l : Nat)
    (hid : ¬ id = 0) (hleb : read_leb128 (id :: after) 1 = some (size, l))
    (hle : 1 + l + size ≤ (id :: after).length) :
    frameSecs (id :: after)
      = Option.map (fun secs => ((id :: after).take (1 + l + size), false) :: secs)
          (frameSecs ((id :: after).drop (1 + l + size))) := by
  show frameGo (id :: after).length (id :: after) = _
  simp only [List.length_cons, frameGo, hleb]
  rw [if_pos (by simpa using hle), if_neg hid]
  exact congrArg (Option.map _)
    (frameGo_fuel after.length ((id :: after).drop (1 + l + size)).length _
      (by simp only [List.length_drop, List.length_cons]; omega) le_rfl)

theorem frameSecs_custom_name_none (after : List Nat) (size l : Nat)
    (hleb : read_leb128 (0 :: after) 1 = some (size, l))
    (hle : 1 + l + size ≤ (0 :: after).length)
    (hname : read_leb128 (0 :: after) (1 + l) = none) :
    frameSecs (0 :: after) = none := by
  show frameGo (0 :: after).length (0 :: after) = _
  simp only [List.length_cons, frameGo, hleb, hname]
  rw [if_pos (by simpa using hle)]
  simp

theorem frameSecs_custom (after : List Nat) (size l nlen nl : Nat)
    (hleb : read_leb128 (0 :: after) 1 = some (size, l))
    (hle : 1 + l + size ≤ (0 :: after).length)
    (hname : read_leb128 (0 :: after) (1 + l) = some (nlen, nl)) :
    frameSecs (0 :: after)
      = Option.map (fun secs =>
          ((0 :: after).take (1 + l + size),
            decide (utf8DecodeReplace (((0 :: after).drop (1 + l + nl)).take nlen)
              = target_features)) :: secs)
          (frameSecs ((0 :: after).drop (1 + l + size))) := by
  show frameGo (0 :: after).length (0 :: after) = _
  simp only [List.length_cons, frameGo, hleb, hname]
  rw [if_pos (by simpa using hle)]
  rw [if_pos trivial]
  exact congrArg (Option.map _)
    (frameGo_fuel after.length ((0 :: after).drop (1 + l + size)).length _
      (by simp only [List.length_drop, List.length_cons]; omega) le_rfl)

/-- The loop accumulator identity behind the decoder correctness claim. -/
theorem lebCore_spec (chunk : List Nat) : ∀ (last : Nat) (rest : List Nat) (shift acc : Nat),
    (∀ b ∈ chunk, b &&& 0x80 ≠ 0) → last &&& 0x80 = 0 →
    lebCore (chunk ++ last :: rest) shift acc
      = some (acc ||| (leb128SpecValue (chunk ++ [last]) <<< shift),
              chunk.length + 1) := by
  induction chunk with
  | nil =>
    intro last rest shift acc _ hlast
    simp only [List.nil_append, lebCore, leb128SpecValue]
    rw [if_pos hlast]
    simp
  | cons b chunk' ih =>
    intro last rest shift acc hcont hlast
    have hb : b &&& 0x80 ≠ 0 := hcont b (List.mem_cons_self _ _)
    simp only [List.cons_append, lebCore]
    rw [if_neg hb]
    simp only [List.append_eq]
    rw [ih last rest (shift + 7) _
      (fun x hx => hcont x (List.mem_cons_of_mem _ hx)) hlast]
    show some (_, _) = some (_, _)
    have hval : acc ||| ((b &&& 0x7F) <<< shift)
          ||| (leb128SpecValue (chunk' ++ [last]) <<< (shift + 7))
        = acc ||| (leb128SpecValue ((b :: chunk') ++ [last]) <<< shift) := by
      simp only [List.cons_append, leb128SpecValue, List.append_eq]
      rw [shiftLeft_or_distrib, ← Nat.shiftLeft_add, Nat.or_assoc,
        Nat.add_comm 7 shift]
    rw [hval]
    simp only [List.length_cons, List.cons_append]

/-! ### UTF-8 decoder lemmas -/

theorem utf8Step_ascii (b : Nat) (rest : List Nat) (h : b < 0x80) :
    utf8Step b rest = (b, 0) := by
  simp [utf8Step, h]

theorem utf8Step_fst_ge (b : Nat) (rest : List Nat) (h : ¬ b < 0x80) :
    0x80 ≤ (utf8Step b rest).1 := by
  unfold utf8Step
  rw [if_neg h]
  repeat' split
  all_goals dsimp only
  all_goals omega

theorem utf8Go_ascii_id : ∀ (fuel : Nat) (bs : List Nat), bs.length ≤ fuel →
    (∀ c ∈ utf8Go fuel bs, c < 0x80) → utf8Go fuel bs = bs := by
  intro fuel
  induction fuel with
  | zero =>
    intro bs h1 _
    match bs with
    | [] => rfl
    | b :: rest => simp at h1
  | succ g ih =>
    intro bs h1 hall
    match bs with
    | [] => rfl
    | b :: rest =>
      simp only [utf8Go] at hall ⊢
      have hb : (utf8Step b rest).1 < 0x80 := hall _ (List.mem_cons_self _ _)
      by_cases hlt : b < 0x80
      · rw [utf8Step_ascii b rest hlt] at hall ⊢
        simp only [List.drop_zero] at hall ⊢
        congr 1
        exact ih rest (by simp only [List.length_cons] at h1; omega)
          (fun c hc => hall c (List.mem_cons_of_mem _ hc))
      · exact absurd hb (by have := utf8Step_fst_ge b rest hlt; omega)

/-- If every code point of the decoded string is ASCII, the bytes are
exactly those code points (multi-byte and replacement output is never
below `0x80`). -/
theorem utf8DecodeReplace_ascii_id (bs : List Nat)
    (hall : ∀ c ∈ utf8DecodeReplace bs, c < 0x80) : utf8DecodeReplace bs = bs :=
  utf8Go_ascii_id bs.length bs le_rfl hall

/-- The only byte sequence whose replacement-decoding equals
`"target_features"` is the ASCII encoding itself. -/
theorem utf8DecodeReplace_eq_target (bs : List Nat)
    (h : utf8DecodeReplace bs = target_features) : bs = target_features := by
  have hall : ∀ c ∈ utf8DecodeReplace bs, c < 0x80 := by
    rw [h]
    decide
  rw [← utf8DecodeReplace_ascii_id bs hall, h]

/-! ### Loop/Framer correspondence -/

theorem stripLoop_of_frameGo : ∀ (n : Nat) (s : List Nat) (secs : List (List Nat × Bool)),
    s.length ≤ n → frameSecs s = some secs →
    stripLoop s = .ok (sectionsBytes (secs.filter (fun p => !p.2)),
                       (secs.filter (fun p => p.2)).length) := by
  intro n
  induction n with
  | zero =>
    intro s secs h1 hf
    match s with
    | [] =>
      rw [frameSecs_nil] at hf
      injection hf with h2
      subst h2
      rfl
    | b :: rest => simp at h1
  | succ g ih =>
    intro s secs h1 hf
    match s with
    | [] =>
      rw [frameSecs_nil] at hf
      injection hf with h2
      subst h2
      rfl
    | id :: after =>
      cases hleb : read_leb128 (id :: after) 1 with
      | none =>
        rw [frameSecs_leb_none _ _ hleb] at hf
        simp at hf
      | some p =>
        obtain ⟨size, l⟩ := p
        by_cases hle : 1 + l + size ≤ (id :: after).length
        · by_cases hid : id = 0
          · subst hid
            cases hname : read_leb128 (0 :: after) (1 + l) with
            | none =>
              rw [frameSecs_custom_name_none _ _ _ hleb hle hname] at hf
              simp at hf
            | some q =>
              obtain ⟨nlen, nl⟩ := q
              rw [frameSecs_custom _ _ _ _ _ hleb hle hname] at hf
              rw [Option.map_eq_some'] at hf
              obtain ⟨secs', hf', rfl⟩ := hf
              have hrec := ih ((0 :: after).drop (1 + l + size)) secs'
                (by
                  simp only [List.length_drop, List.length_cons]
                  simp only [List.length_cons] at h1
                  omega) hf'
              rw [stripLoop_custom _ _ _ _ _ hleb hname]
              by_cases hmatch :
                  utf8DecodeReplace (((0 :: after).drop (1 + l + nl)).take nlen)
                    = target_features
              · rw [if_pos hmatch, hrec]
                simp [hmatch, List.filter_cons, Except.map]
              · rw [if_neg hmatch, hrec]
                simp [hmatch, List.filter_cons, Except.map, sectionsBytes]
          · rw [frameSecs_noncustom _ _ _ _ hid hleb hle] at hf
            rw [Option.map_eq_some'] at hf
            obtain ⟨secs', hf', rfl⟩ := hf
            have hrec := ih ((id :: after).drop (1 + l + size)) secs'
              (by
                simp only [List.length_drop, List.length_cons]
                simp only [List.length_cons] at h1
                omega) hf'
            rw [stripLoop_noncustom _ _ _ _ hid hleb, hrec]
            simp [List.filter_cons, Except.map, sectionsBytes]
        · rw [frameSecs_overrun _ _ _ _ hleb hle] at hf
          simp at hf

/-- The loop agrees with the spec framer on every well-formed section
table: it emits exactly the unmatched sections' spans, in order, and
counts the matched ones. -/
theorem stripLoop_of_frame (s : List Nat) (secs : List (List Nat × Bool))
    (hf : frameSecs s = some secs) :
    stripLoop s = .ok (sectionsBytes (secs.filter (fun p => !p.2)),
                       (secs.filter (fun p => p.2)).length) :=
  stripLoop_of_frameGo s.length s secs le_rfl hf

theorem frame_tiling_aux : ∀ (n : Nat) (s : List Nat) (secs : List (List Nat × Bool)),
    s.length ≤ n → frameSecs s = some secs → sectionsBytes secs = s := by
  intro n
  induction n with
  | zero =>
    intro s secs h1 hf
    match s with
    | [] =>
      rw [frameSecs_nil] at hf
      injection hf with h2
      subst h2
      rfl
    | b :: rest => simp at h1
  | succ g ih =>
    intro s secs h1 hf
    match s with
    | [] =>
      rw [frameSecs_nil] at hf
      injection hf with h2
      subst h2
      rfl
    | id :: after =>
      cases hleb : read_leb128 (id :: after) 1 with
      | none =>
        rw [frameSecs_leb_none _ _ hleb] at hf
        simp at hf
      | some p =>
        obtain ⟨size, l⟩ := p
        by_cases hle : 1 + l + size ≤ (id :: after).length
        · have hlen : ((id :: after).drop (1 + l + size)).length ≤ g := by
            simp only [List.length_drop, List.length_cons]
            simp only [List.length_cons] at h1
            omega
          by_cases hid : id = 0
          · subst hid
            cases hname : read_leb128 (0 :: after) (1 + l) with
            | none =>
              rw [frameSecs_custom_name_none _ _ _ hleb hle hname] at hf
              simp at hf
            | some q =>
              obtain ⟨nlen, nl⟩ := q
              rw [frameSecs_custom _ _ _ _ _ hleb hle hname] at hf
              rw [Option.map_eq_some'] at hf
              obtain ⟨secs', hf', rfl⟩ := hf
              show (0 :: after).take (1 + l + size) ++ sectionsBytes secs' = _
              rw [ih _ _ hlen hf', List.take_append_drop]
          · rw [frameSecs_noncustom _ _ _ _ hid hleb hle] at hf
            rw [Option.map_eq_some'] at hf
            obtain ⟨secs', hf', rfl⟩ := hf
            show (id :: after).take (1 + l + size) ++ sectionsBytes secs' = _
            rw [ih _ _ hlen hf', List.take_append_drop]
        · rw [frameSecs_overrun _ _ _ _ hleb hle] at hf
          simp at hf

/-- The section spans produced by the framer tile the input exactly. -/
theorem frame_tiling (s : List Nat) (secs : List (List Nat × Bool))
    (hf : frameSecs s = some secs) : sectionsBytes secs = s :=
  frame_tiling_aux s.length s secs le_rfl hf

theorem sectionsBytes_length_split (secs : List (List Nat × Bool)) :
    (sectionsBytes (secs.filter (fun p => !p.2))).length
      + (sectionsBytes (secs.filter (fun p => p.2))).length
      = (sectionsBytes secs).length := by
  induction secs with
  | nil => rfl
  | cons p rest ih =>
    cases hp : p.2 <;> simp [sectionsBytes, List.filter_cons, hp] <;> omega

/-! ### Locality: parsing a self-contained section chunk -/

theorem take_drop_cons_append (id : Nat) (after rest : List Nat) (j n : Nat)
    (h : j + n ≤ after.length + 1) :
    ((id :: (after ++ rest)).drop j).take n = ((id :: after).drop j).take n := by
  cases j with
  | zero =>
    cases n with
    | zero => rfl
    | succ n' =>
      simp only [List.drop_zero, List.take_succ_cons]
      rw [List.take_append_of_le_length (by omega)]
  | succ j' =>
    simp only [List.drop_succ_cons]
    rw [List.drop_append_of_le_length (by omega)]
    rw [List.take_append_of_le_length (by simp only [List.length_drop]; omega)]

theorem take_chunk_cons_append (id : Nat) (after rest : List Nat) :
    (id :: (after ++ rest)).take (after.length + 1) = id :: after := by
  have h := take_drop_cons_append id after rest 0 (after.length + 1) (by omega)
  simp only [List.drop_zero] at h
  rw [h]
  rw [show after.length + 1 = (id :: after).length from by simp, List.take_length]

theorem drop_chunk_cons_append (id : Nat) (after rest : List Nat) :
    (id :: (after ++ rest)).drop (after.length + 1) = rest := by
  simp only [List.drop_succ_cons]
  exact List.drop_left after rest

/-- Parsing at a self-contained section chunk consumes exactly the
chunk, strips it iff its flag is set, and continues with the rest. -/
theorem stripLoop_chunk (chunk : List Nat) (m : Bool) (rest : List Nat)
    (h : IsSectionChunkB chunk m = true) :
    stripLoop (chunk ++ rest)
      = if m then Except.map (fun p => (p.1, p.2 + 1)) (stripLoop rest)
        else Except.map (fun p => (chunk ++ p.1, p.2)) (stripLoop rest) := by
  match chunk with
  | [] => simp [IsSectionChunkB] at h
  | id :: after =>
    rw [IsSectionChunkB] at h
    cases hleb : read_leb128 (id :: after) 1 with
    | none => rw [hleb] at h; simp at h
    | some p =>
      obtain ⟨size, l⟩ := p
      rw [hleb] at h
      simp only [Bool.and_eq_true, decide_eq_true_eq] at h
      obtain ⟨hlen, hrest⟩ := h
      have hlen' : (1 : Nat) + l + size = after.length + 1 := by
        simp only [List.length_cons] at hlen
        omega
      have hleb2 : read_leb128 (id :: (after ++ rest)) 1 = some (size, l) :=
        read_leb128_append (id :: after) rest 1 _ hleb
      by_cases hid : id = 0
      · subst hid
        rw [if_pos rfl] at hrest
        cases hname : read_leb128 (0 :: after) (1 + l) with
        | none => rw [hname] at hrest; simp at hrest
        | some q =>
          obtain ⟨nlen, nl⟩ := q
          rw [hname] at hrest
          simp only [Bool.and_eq_true, decide_eq_true_eq, beq_iff_eq] at hrest
          obtain ⟨hin, hm⟩ := hrest
          have hname2 : read_leb128 (0 :: (after ++ rest)) (1 + l) = some (nlen, nl) :=
            read_leb128_append (0 :: after) rest (1 + l) _ hname
          show stripLoop (0 :: (after ++ rest)) = _
          rw [stripLoop_custom (after ++ rest) size l nlen nl hleb2 hname2]
          have hslice : ((0 :: (after ++ rest)).drop (1 + l + nl)).take nlen
              = ((0 :: after).drop (1 + l + nl)).take nlen := by
            apply take_drop_cons_append
            simp only [List.length_cons] at hin
            omega
          rw [hslice]
          simp only [hlen']
          rw [drop_chunk_cons_append, take_chunk_cons_append]
          cases m with
          | true =>
            rw [if_pos (of_decide_eq_true hm.symm), if_pos rfl]
          | false =>
            rw [if_neg (by
              have hd : decide (utf8DecodeReplace (((0 :: after).drop (1 + l + nl)).take nlen)
                  = target_features) = false := hm.symm
              exact of_decide_eq_false hd)]
            rw [if_neg (by simp)]
      · rw [if_neg hid] at hrest
        simp only [beq_iff_eq] at hrest
        subst hrest
        show stripLoop (id :: (after ++ rest)) = _
        rw [stripLoop_noncustom id (after ++ rest) size l hid hleb2]
        simp only [hlen']
        rw [drop_chunk_cons_append, take_chunk_cons_append]
        rw [if_neg (by simp)]

/-- Running the loop on a concatenation of self-contained section chunks
keeps exactly the unflagged chunks and counts the flagged ones. -/
theorem stripLoop_chunks (chunks : List (List Nat × Bool))
    (hall : ∀ p ∈ chunks, IsSectionChunkB p.1 p.2 = true) :
    stripLoop (sectionsBytes chunks)
      = .ok (sectionsBytes (chunks.filter (fun p => !p.2)),
             (chunks.filter (fun p => p.2)).length) := by
  induction chunks with
  | nil => rfl
  | cons p rest ih =>
    obtain ⟨c, m⟩ := p
    have hc : IsSectionChunkB c m = true := hall (c, m) (List.mem_cons_self _ _)
    have hrec := ih (fun q hq => hall q (List.mem_cons_of_mem _ hq))
    show stripLoop (c ++ sectionsBytes rest) = _
    rw [stripLoop_chunk c m _ hc]
    cases m with
    | true =>
      rw [if_pos rfl, hrec]
      simp [List.filter_cons, Except.map]
    | false =>
      rw [if_neg (by simp), hrec]
      simp [List.filter_cons, Except.map, sectionsBytes]

/-! ### Claims -/

/-- C1 counterexample: the module `header ++ [0x00, 0x00]` is well-formed
in the claim's sense (valid magic; its single section — a custom section
with empty payload — has declared span `[8, 10)`, inside the 10-byte
buffer).  The claim predicts the section is kept (its name is not
`"target_features"`) and the output equals the input; instead the pass
reads the name-length varint at offset 10, runs off the buffer, and
aborts with no output. -/
theorem c1_counterexample :
    strip [0x00, 0x61, 0x73, 0x6D, 1, 0, 0, 0, 0x00, 0x00]
      = .error .outOfBounds := rfl

/-- C1 (amended): for every module with valid magic whose section table
the framer accepts (every declared span inside the buffer and — the
strengthening forced by the counterexample — every size varint and every
custom section's name-length varint terminating inside the buffer), the
pass removes exactly the custom sections whose decoded name equals the
target name (all occurrences, in one pass) and copies every other
section's full original span verbatim and in original order. -/
theorem c1_strip_removes_exactly_matching (data : List Nat)
    (secs : List (List Nat × Bool))
    (hmagic : data.take 4 = wasmMagic)
    (hframe : frameSecs (data.drop 8) = some secs) :
    strip data = .ok (data.take 8 ++ sectionsBytes (secs.filter (fun p => !p.2)),
                      (secs.filter (fun p => p.2)).length) := by
  unfold strip
  rw [if_pos hmagic, stripLoop_of_frame _ _ hframe]
  rfl

/-- Concrete module for the C1 witness: three `target_features` custom
sections interleaved with two other section types. -/
def c1Module : List Nat :=
  [0x00, 0x61, 0x73, 0x6D, 1, 0, 0, 0] ++
    ([0x00, 16, 15] ++ target_features) ++ [0x01, 0x01, 0xAA] ++
    ([0x00, 16, 15] ++ target_features) ++ [0x02, 0x02, 0xBB, 0xCC] ++
    ([0x00, 16, 15] ++ target_features)

def c1Secs : List (List Nat × Bool) :=
  [([0x00, 16, 15] ++ target_features, true),
   ([0x01, 0x01, 0xAA], false),
   ([0x00, 16, 15] ++ target_features, true),
   ([0x02, 0x02, 0xBB, 0xCC], false),
   ([0x00, 16, 15] ++ target_features, true)]

theorem c1_witness :
    c1Module.take 4 = wasmMagic ∧ frameSecs (c1Module.drop 8) = some c1Secs ∧
    strip c1Module
      = .ok ([0x00, 0x61, 0x73, 0x6D, 1, 0, 0, 0,
              0x01, 0x01, 0xAA, 0x02, 0x02, 0xBB, 0xCC], 3) :=
  ⟨rfl, rfl, by
    rw [c1_strip_removes_exactly_matching c1Module c1Secs rfl rfl]
    rfl⟩

/-- C2 counterexample: a module whose single section (id `0x01`)
declares a 5-byte payload although only 0 bytes remain.  The claim
predicts a `TruncatedModule` error and no output; instead the pass
succeeds, copies the clamped span, exits the loop normally with the
cursor past the buffer end, and writes an output file (byte-identical to
the input here). -/
theorem c2_counterexample :
    strip [0x00, 0x61, 0x73, 0x6D, 2, 0, 0, 0, 0x01, 0x05]
      = .ok ([0x00, 0x61, 0x73, 0x6D, 2, 0, 0, 0, 0x01, 0x05], 0) := rfl

/-- C2 (amended): the pass performs no `payload_end` bounds check and
never raises a `TruncatedModule` error.  Complete behaviour at a section
whose declared span exceeds the remaining buffer (suffix `s`, so the
cursor ends at or past the buffer end, not exactly at it):
(1) not a custom section: its available bytes are copied verbatim (the
Python slice clamps at the buffer end) and the loop exits normally,
removing nothing further;
(2) a custom section whose name-length varint still terminates inside
the buffer: the (buffer-clamped) name is decoded anyway — the section is
*removed* (count 1) if the name equals the target, and copied clamped
otherwise, again with a normal loop exit;
(3) a truncated custom section aborts the pass only when the
name-length varint read itself runs past the buffer end;
(4) whenever the loop completes, the output file is written — so
truncated modules produce output rather than an error. -/
theorem c2_truncated_section_behavior (s : List Nat) (id : Nat) (after : List Nat)
    (size l : Nat)
    (hs : s = id :: after)
    (hleb : read_leb128 s 1 = some (size, l))
    (htrunc : s.length < 1 + l + size) :
    (¬ id = 0 → stripLoop s = .ok (s, 0))
    ∧ (id = 0 → ∀ nlen nl : Nat, read_leb128 s (1 + l) = some (nlen, nl) →
        (utf8DecodeReplace ((s.drop (1 + l + nl)).take nlen) = target_features →
          stripLoop s = .ok ([], 1))
        ∧ (¬ utf8DecodeReplace ((s.drop (1 + l + nl)).take nlen) = target_features →
          stripLoop s = .ok (s, 0)))
    ∧ (id = 0 → read_leb128 s (1 + l) = none →
        stripLoop s = .error .outOfBounds)
    ∧ (∀ (data o : List Nat) (c : Nat), data.take 4 = wasmMagic →
        data.drop 8 = s → stripLoop s = .ok (o, c) →
        strip data = .ok (data.take 8 ++ o, c)) := by
  subst hs
  refine ⟨?_, ?_, ?_, ?_⟩
  · intro hid
    rw [stripLoop_noncustom id after size l hid hleb]
    rw [List.drop_eq_nil_of_le (le_of_lt htrunc), stripLoop_nil]
    show Except.ok ((id :: after).take (1 + l + size) ++ [], 0) = _
    rw [List.take_of_length_le (le_of_lt htrunc), List.append_nil]
  · intro hid0 nlen nl hname
    subst hid0
    rw [stripLoop_custom after size l nlen nl hleb hname]
    constructor
    · intro hmatch
      rw [if_pos hmatch]
      rw [List.drop_eq_nil_of_le (le_of_lt htrunc), stripLoop_nil]
      rfl
    · intro hnm
      rw [if_neg hnm]
      rw [List.drop_eq_nil_of_le (le_of_lt htrunc), stripLoop_nil]
      show Except.ok ((0 :: after).take (1 + l + size) ++ [], 0) = _
      rw [List.take_of_length_le (le_of_lt htrunc), List.append_nil]
  · intro hid0 hname
    subst hid0
    exact stripLoop_custom_name_none after size l hleb hname
  · intro data o c hm hd hloop
    unfold strip
    rw [if_pos hm, hd, hloop]
    rfl

theorem c2_witness :
    stripLoop [0x01, 0x05] = .ok ([0x01, 0x05], 0)
    ∧ strip [0x00, 0x61, 0x73, 0x6D, 9, 0, 0, 0, 0x01, 0x05]
        = .ok ([0x00, 0x61, 0x73, 0x6D, 9, 0, 0, 0, 0x01, 0x05], 0)
    ∧ stripLoop ([0x00, 0x20, 0x0F] ++ target_features) = .ok ([], 1)
    ∧ stripLoop [0x00, 0x05, 0x01, 0x41] = .ok ([0x00, 0x05, 0x01, 0x41], 0)
    ∧ stripLoop [0x00, 0x05] = .error .outOfBounds := by
  have hnc := (c2_truncated_section_behavior [0x01, 0x05] 0x01 [0x05] 5 1
    rfl rfl (by decide)).1 (by decide)
  refine ⟨hnc, ?_, ?_, ?_, ?_⟩
  · exact (c2_truncated_section_behavior [0x01, 0x05] 0x01 [0x05] 5 1
      rfl rfl (by decide)).2.2.2
      [0x00, 0x61, 0x73, 0x6D, 9, 0, 0, 0, 0x01, 0x05] [0x01, 0x05] 0
      rfl rfl hnc
  · exact ((c2_truncated_section_behavior ([0x00, 0x20, 0x0F] ++ target_features)
      0x00 ([0x20, 0x0F] ++ target_features) 0x20 1 rfl (by decide)
      (by decide)).2.1 rfl 15 1 (by decide)).1 (by decide)
  · exact ((c2_truncated_section_behavior [0x00, 0x05, 0x01, 0x41]
      0x00 [0x05, 0x01, 0x41] 5 1 rfl rfl (by decide)).2.1
      rfl 1 1 rfl).2 (by decide)
  · exact (c2_truncated_section_behavior [0x00, 0x05] 0x00 [0x05] 5 1
      rfl rfl (by decide)).2.2.1 rfl rfl

/-- C3: if every byte from `off` to the end of the buffer has the
continuation bit set, varint decoding fails (`none`, the Python
`IndexError` / the spec's `MalformedEncoding`); when the unterminated
varint is the first size field the whole pass aborts with an error
result, i.e. the process dies before the output file is opened, so no
output file is produced. -/
theorem c3_unterminated_varint_aborts (data : List Nat) (off : Nat)
    (hall : ∀ b ∈ data.drop off, b &&& 0x80 ≠ 0) :
    read_leb128 data off = none
    ∧ (off = 9 → data.take 4 = wasmMagic → 8 < data.length →
        strip data = .error .outOfBounds) := by
  constructor
  · exact lebCore_none_of_all_cont _ 0 0 hall
  · intro hoff hmagic hlen
    subst hoff
    unfold strip
    rw [if_pos hmagic]
    cases hD : data.drop 8 with
    | nil =>
      have := congrArg List.length hD
      simp only [List.length_drop, List.length_nil] at this
      omega
    | cons id rest =>
      have h9 : data.drop 9 = rest := by
        have h := List.drop_drop 1 8 data
        rw [hD] at h
        simpa using h.symm
      have hall9 : ∀ b ∈ rest, b &&& 0x80 ≠ 0 := by
        rw [← h9]
        exact hall
      have hnone : read_leb128 (id :: rest) 1 = none :=
        lebCore_none_of_all_cont rest 0 0 hall9
      rw [stripLoop_leb_none id rest hnone]
      rfl

theorem c3_witness :
    read_leb128 [0x00, 0x61, 0x73, 0x6D, 0, 0, 0, 0, 0x07, 0x80, 0x81, 0xFF] 9 = none
    ∧ strip [0x00, 0x61, 0x73, 0x6D, 0, 0, 0, 0, 0x07, 0x80, 0x81, 0xFF]
        = .error .outOfBounds :=
  ⟨(c3_unterminated_varint_aborts _ 9 (by decide)).1,
   (c3_unterminated_varint_aborts _ 9 (by decide)).2 rfl rfl (by decide)⟩

/-- C4 counterexample: an input of nine continuation bytes followed by a
terminator.  The claim says the decoder reads at most a fixed bound of
bytes (e.g. 5 for a 32-bit length) and rejects longer runs; in fact it
reads all 10 bytes and succeeds. -/
theorem c4_counterexample :
    read_leb128 [0x80, 0x80, 0x80, 0x80, 0x80, 0x80, 0x80, 0x80, 0x80, 0x00] 0
      = some (0, 10) := rfl

theorem lebCore_replicate_cont (n : Nat) : ∀ (shift acc : Nat),
    lebCore (List.replicate n 0x80 ++ [0x00]) shift acc = some (acc, n + 1) := by
  induction n with
  | zero =>
    intro shift acc
    simp [lebCore]
  | succ g ih =>
    intro shift acc
    simp only [List.replicate, List.cons_append, lebCore]
    rw [if_neg (by decide)]
    simp only [show (0x80 &&& 0x7F : Nat) = 0 from rfl, Nat.zero_shiftLeft,
      Nat.or_zero, List.append_eq]
    rw [ih]

/-- C4 (amended): the decoder imposes no bound at all on the number of
continuation bytes: for every `n`, an input of `n` continuation bytes
followed by a terminator is decoded successfully, consuming `n + 1`
bytes — consumption is limited only by the buffer itself (running off
the buffer end is the sole failure mode). -/
theorem c4_decoder_unbounded (n : Nat) :
    read_leb128 (List.replicate n 0x80 ++ [0x00]) 0 = some (0, n + 1) :=
  lebCore_replicate_cont n 0 0

/-- C5: whenever a terminating byte (high bit clear) occurs at or after
`off` in the buffer — `chunk` being the run of continuation bytes before
the first such byte `last` — the decoder returns the little-endian
base-128 value of the bytes read (each byte's low 7 bits OR-ed in,
shifted left by 7 per byte index), stops at that first terminator, and
reports `bytes_consumed = chunk.length + 1 ≥ 1`. -/
theorem c5_decoder_correct (data : List Nat) (off : Nat) (chunk : List Nat)
    (last : Nat) (rest : List Nat)
    (hsplit : data.drop off = chunk ++ last :: rest)
    (hcont : ∀ b ∈ chunk, b &&& 0x80 ≠ 0)
    (hlast : last &&& 0x80 = 0) :
    read_leb128 data off
      = some (leb128SpecValue (chunk ++ [last]), chunk.length + 1)
    ∧ 1 ≤ chunk.length + 1 := by
  refine ⟨?_, by omega⟩
  unfold read_leb128
  rw [hsplit, lebCore_spec chunk last rest 0 0 hcont hlast]
  simp

theorem c5_witness :
    ([0xE5, 0x8E, 0x26] : List Nat).drop 0 = [0xE5, 0x8E] ++ 0x26 :: []
    ∧ read_leb128 [0xE5, 0x8E, 0x26] 0
        = some (leb128SpecValue ([0xE5, 0x8E] ++ [0x26]), 3)
    ∧ leb128SpecValue ([0xE5, 0x8E] ++ [0x26]) = 624485 :=
  ⟨rfl,
   (c5_decoder_correct [0xE5, 0x8E, 0x26] 0 [0xE5, 0x8E] 0x26 [] rfl
     (by decide) (by decide)).1,
   rfl⟩

/-- C6: for a module with valid magic whose section table the framer
accepts and in which no custom section's decoded name equals the target
name, the pass succeeds with output byte-identical to the input and a
removal count of 0 (the `stripped == False` path: a warning is printed
and the exit is successful). -/
theorem c6_roundtrip (data : List Nat) (secs : List (List Nat × Bool))
    (hmagic : data.take 4 = wasmMagic)
    (hframe : frameSecs (data.drop 8) = some secs)
    (hnone : ∀ p ∈ secs, p.2 = false) :
    strip data = .ok (data, 0) := by
  unfold strip
  rw [if_pos hmagic, stripLoop_of_frame _ _ hframe]
  have h1 : secs.filter (fun p => !p.2) = secs := by
    rw [List.filter_eq_self]
    intro p hp
    simp [hnone p hp]
  have h2 : secs.filter (fun p => p.2) = [] := by
    rw [List.filter_eq_nil_iff]
    intro p hp
    simp [hnone p hp]
  rw [h1, h2, frame_tiling _ _ hframe]
  show Except.ok (data.take 8 ++ data.drop 8, 0) = _
  rw [List.take_append_drop]

/-- Concrete module for the C6 witness: one custom section named
`"other"` and one id-3 section; no `target_features` anywhere. -/
def c6Module : List Nat :=
  [0x00, 0x61, 0x73, 0x6D, 1, 0, 0, 0] ++
    [0x00, 0x07, 0x05, 0x6F, 0x74, 0x68, 0x65, 0x72, 0xEE] ++
    [0x03, 0x02, 0x10, 0x20]

def c6Secs : List (List Nat × Bool) :=
  [([0x00, 0x07, 0x05, 0x6F, 0x74, 0x68, 0x65, 0x72, 0xEE], false),
   ([0x03, 0x02, 0x10, 0x20], false)]

theorem c6_witness :
    frameSecs (c6Module.drop 8) = some c6Secs
    ∧ (∀ p ∈ c6Secs, p.2 = false)
    ∧ strip c6Module = .ok (c6Module, 0) :=
  ⟨rfl, by decide, c6_roundtrip c6Module c6Secs rfl rfl (by decide)⟩

/-- C7 counterexample: `header ++ A ++ B` with `A = [0x00, 0x00]` (a
custom section with empty payload, whose name-length varint is therefore
read from the first byte of `B`, giving the empty name) and `B` a
`target_features` custom section.  The first run keeps `A` and removes
`B`.  On the first run's output `A` is the last section, so its
name-length read runs off the buffer: the second run aborts instead of
reproducing the first output, refuting idempotence for well-formed
modules. -/
theorem c7_counterexample :
    strip ([0x00, 0x61, 0x73, 0x6D, 7, 0, 0, 0] ++ [0x00, 0x00] ++
        ([0x00, 0x10, 0x0F] ++ target_features))
      = .ok ([0x00, 0x61, 0x73, 0x6D, 7, 0, 0, 0, 0x00, 0x00], 1)
    ∧ strip [0x00, 0x61, 0x73, 0x6D, 7, 0, 0, 0, 0x00, 0x00]
      = .error .outOfBounds :=
  ⟨rfl, rfl⟩

/-- C7 (amended): idempotence holds when every custom section's name
field lies inside the section's own payload (so a section's match status
depends only on its own bytes).  For a header-plus-self-contained-chunks
module, one run keeps exactly the unmatched chunks, and a second run on
the output changes nothing and removes nothing. -/
theorem c7_idempotent_selfcontained (hdr : List Nat)
    (chunks : List (List Nat × Bool))
    (hlen : hdr.length = 8) (hmagic : hdr.take 4 = wasmMagic)
    (hch : ∀ p ∈ chunks, IsSectionChunkB p.1 p.2 = true) :
    strip (hdr ++ sectionsBytes chunks)
      = .ok (hdr ++ sectionsBytes (chunks.filter (fun p => !p.2)),
             (chunks.filter (fun p => p.2)).length)
    ∧ strip (hdr ++ sectionsBytes (chunks.filter (fun p => !p.2)))
      = .ok (hdr ++ sectionsBytes (chunks.filter (fun p => !p.2)), 0) := by
  have htake4 : ∀ x : List Nat, (hdr ++ x).take 4 = wasmMagic := by
    intro x
    rw [List.take_append_of_le_length (by omega), hmagic]
  have htake8 : ∀ x : List Nat, (hdr ++ x).take 8 = hdr :=
    fun x => List.take_left' hlen
  have hdrop8 : ∀ x : List Nat, (hdr ++ x).drop 8 = x :=
    fun x => List.drop_left' hlen
  constructor
  · unfold strip
    rw [if_pos (htake4 _), hdrop8, stripLoop_chunks chunks hch]
    simp only [Except.map]
    rw [htake8]
  · unfold strip
    rw [if_pos (htake4 _), hdrop8]
    have hch' : ∀ p ∈ chunks.filter (fun p => !p.2),
        IsSectionChunkB p.1 p.2 = true :=
      fun p hp => hch p (List.mem_filter.mp hp).1
    rw [stripLoop_chunks _ hch']
    have hf1 : (chunks.filter (fun p => !p.2)).filter (fun p => !p.2)
        = chunks.filter (fun p => !p.2) := by
      rw [List.filter_eq_self]
      intro p hp
      exact (List.mem_filter.mp hp).2
    have hf2 : (chunks.filter (fun p => !p.2)).filter (fun p => p.2) = [] := by
      rw [List.filter_eq_nil_iff]
      intro p hp hp2
      have h := (List.mem_filter.mp hp).2
      rw [hp2] at h
      simp at h
    rw [hf1, hf2]
    simp only [Except.map]
    rw [htake8]
    rfl

def c7Chunks : List (List Nat × Bool) :=
  [([0x00, 0x11, 0x0F] ++ target_features ++ [0xAB], true),
   ([0x01, 0x01, 0x55], false)]

theorem c7_witness :
    (∀ p ∈ c7Chunks, IsSectionChunkB p.1 p.2 = true)
    ∧ strip ([0x00, 0x61, 0x73, 0x6D, 0, 0, 0, 0] ++ sectionsBytes c7Chunks)
        = .ok ([0x00, 0x61, 0x73, 0x6D, 0, 0, 0, 0] ++
            sectionsBytes (c7Chunks.filter (fun p => !p.2)), 1)
    ∧ strip ([0x00, 0x61, 0x73, 0x6D, 0, 0, 0, 0] ++
          sectionsBytes (c7Chunks.filter (fun p => !p.2)))
        = .ok ([0x00, 0x61, 0x73, 0x6D, 0, 0, 0, 0] ++
            sectionsBytes (c7Chunks.filter (fun p => !p.2)), 0) :=
  ⟨by decide,
   (c7_idempotent_selfcontained [0x00, 0x61, 0x73, 0x6D, 0, 0, 0, 0] c7Chunks
     rfl rfl (by decide)).1,
   (c7_idempotent_selfcontained [0x00, 0x61, 0x73, 0x6D, 0, 0, 0, 0] c7Chunks
     rfl rfl (by decide)).2⟩

/-- C8: when the pass succeeds on a module whose section table the
framer accepts, the output's byte length equals the input length minus
the total span length of the removed sections (each span including the
id byte, size field and whole payload — the name field is part of the
payload). -/
theorem c8_length_equation (data : List Nat) (secs : List (List Nat × Bool))
    (out : List Nat) (k : Nat)
    (hmagic : data.take 4 = wasmMagic)
    (hframe : frameSecs (data.drop 8) = some secs)
    (hstrip : strip data = .ok (out, k)) :
    out.length = data.length
      - (sectionsBytes (secs.filter (fun p => p.2))).length := by
  have h : strip data
      = .ok (data.take 8 ++ sectionsBytes (secs.filter (fun p => !p.2)),
             (secs.filter (fun p => p.2)).length) := by
    unfold strip
    rw [if_pos hmagic, stripLoop_of_frame _ _ hframe]
    rfl
  rw [h] at hstrip
  injection hstrip with hpair
  have hout : data.take 8 ++ sectionsBytes (secs.filter (fun p => !p.2)) = out :=
    congrArg Prod.fst hpair
  have htile := frame_tiling _ _ hframe
  have hsplit := sectionsBytes_length_split secs
  have hlen : data.length = (data.take 8).length + (data.drop 8).length := by
    conv_lhs => rw [← List.take_append_drop 8 data]
    rw [List.length_append]
  rw [← htile] at hlen
  have hlout := congrArg List.length hout
  simp only [List.length_append] at hlout
  omega

def c8Module : List Nat :=
  [0x00, 0x61, 0x73, 0x6D, 2, 0, 0, 0] ++
    ([0x00, 16, 15] ++ target_features) ++ [0x05, 0x01, 0x99]

def c8Secs : List (List Nat × Bool) :=
  [([0x00, 16, 15] ++ target_features, true), ([0x05, 0x01, 0x99], false)]

theorem c8_witness :
    frameSecs (c8Module.drop 8) = some c8Secs
    ∧ strip c8Module
        = .ok ([0x00, 0x61, 0x73, 0x6D, 2, 0, 0, 0, 0x05, 0x01, 0x99], 1)
    ∧ ([0x00, 0x61, 0x73, 0x6D, 2, 0, 0, 0, 0x05, 0x01, 0x99] : List Nat).length
        = c8Module.length
          - (sectionsBytes (c8Secs.filter (fun p => p.2))).length :=
  ⟨rfl, rfl, c8_length_equation c8Module c8Secs _ 1 rfl rfl rfl⟩

/-- C9: a custom section whose name bytes are not valid UTF-8 never
aborts the pass and is never stripped: CPython's `errors="replace"`
decoding yields at least one U+FFFD for it, so the decoded name cannot
equal `"target_features"`; the section's full span is copied verbatim
and the loop continues with the following sections. -/
theorem c9_invalid_name_unmatchable (after : List Nat) (size l nlen nl : Nat)
    (hleb : read_leb128 (0 :: after) 1 = some (size, l))
    (hname : read_leb128 (0 :: after) (1 + l) = some (nlen, nl))
    (hinvalid : utf8ValidB (((0 :: after).drop (1 + l + nl)).take nlen) = false) :
    stripLoop (0 :: after)
      = Except.map (fun p => ((0 :: after).take (1 + l + size) ++ p.1, p.2))
          (stripLoop ((0 :: after).drop (1 + l + size))) := by
  rw [stripLoop_custom after size l nlen nl hleb hname]
  rw [if_neg (fun heq => by
    have hbytes := utf8DecodeReplace_eq_target _ heq
    rw [hbytes] at hinvalid
    exact absurd hinvalid (by decide))]

theorem c9_witness :
    utf8ValidB [0xFF] = false
    ∧ stripLoop [0x00, 0x02, 0x01, 0xFF, 0x01, 0x01, 0x22]
        = Except.map (fun p => (([0x00, 0x02, 0x01, 0xFF] : List Nat) ++ p.1, p.2))
            (stripLoop [0x01, 0x01, 0x22])
    ∧ stripLoop [0x00, 0x02, 0x01, 0xFF, 0x01, 0x01, 0x22]
        = .ok ([0x00, 0x02, 0x01, 0xFF, 0x01, 0x01, 0x22], 0) :=
  ⟨rfl,
   c9_invalid_name_unmatchable [0x02, 0x01, 0xFF, 0x01, 0x01, 0x22] 2 1 1 1
     rfl rfl rfl,
   rfl⟩

/-- Module exhibiting the unclamped name read: `header ++ A ++ C` where
`A = [0x00, 0x00]` is a custom section with an *empty* payload and `C`
(id `0x0F`, declared size `0x74 = 116`) follows it.  `A`'s name-length
varint is read from `C`'s id byte (15) and its name bytes from `C`'s
size field and payload, which spell `"target_features"`. -/
def c10OverModule : List Nat :=
  [0x00, 0x61, 0x73, 0x6D, 3, 0, 0, 0] ++ [0x00, 0x00] ++
    ([0x0F, 0x74] ++
      [0x61, 0x72, 0x67, 0x65, 0x74, 0x5F, 0x66, 0x65, 0x61, 0x74, 0x75, 0x72,
       0x65, 0x73] ++ List.replicate 102 0x00)

/-- C10: the name-length varint and name bytes are read from the payload
start without clamping to `payload_end`.  First conjunct: in
`c10OverModule` (well-formed: both spans inside the buffer) the empty-
payload custom section `A` is *removed* with count 1 — its decoded name
is assembled entirely from bytes of the following section, so matching
depends on bytes outside `A`'s own payload.  Second conjunct: when such
a short-payload custom section is last, the name read runs past the
buffer end and the whole pass fails. -/
theorem c10_name_read_unclamped :
    strip c10OverModule
      = .ok ([0x00, 0x61, 0x73, 0x6D, 3, 0, 0, 0] ++
          ([0x0F, 0x74] ++
            [0x61, 0x72, 0x67, 0x65, 0x74, 0x5F, 0x66, 0x65, 0x61, 0x74, 0x75,
             0x72, 0x65, 0x73] ++ List.replicate 102 0x00), 1)
    ∧ strip [0x00, 0x61, 0x73, 0x6D, 4, 0, 0, 0, 0x00, 0x00]
      = .error .outOfBounds :=
  ⟨rfl, rfl⟩
